import Mathlib

/-!
# Verification of the kikoeru-dir-helper core (`src/helper.py`, `src/monitor.py`)

A shallow embedding of the program's core logic:

* the filename password-chain extractor `_extract_password_from_filename`
  (including a faithful model of the two regular expressions it uses and of
  Python's `re.search` / `re.findall` / `re.sub` semantics on them),
* the token parser `_parse_passwords`,
* archive type detection `_detect_file_type` / `_detect_by_magic_bytes`,
* the pending-file readiness logic of `check_pending_files`,
* the disposition rule engine `_apply_rules` and the surrounding
  `process_archive` control flow.

Strings are modelled as `List Char`; Python byte strings as `List Nat`;
`time.time()` / `st_mtime` values as `ℚ`.  The whitespace class `\s` and
`str.strip` are modelled by their behaviour on ASCII characters (the
characters the program actually manipulates).  Filesystem operations are
modelled as succeeding (the exception-free execution); the optional
`python-magic` content-sniffing fallback is modelled as unavailable
(its `ImportError` branch), matching its status as an excluded peripheral.
-/

namespace Kikoeru

/-- Python's `\s` (and `str.isspace`) restricted to ASCII code points. -/
def pySpace (c : Char) : Bool :=
  c = ' ' || c = '\t' || c = '\n' || c = '\x0d' || c = '\x0b' || c = '\x0c' ||
  c = '\x1c' || c = '\x1d' || c = '\x1e' || c = '\x1f'

/-- Python `str.strip()`: remove leading and trailing whitespace. -/
def pyStrip (s : List Char) : List Char :=
  ((s.dropWhile pySpace).reverse.dropWhile pySpace).reverse

/-- The literal `pass-` of the password marker. -/
def passLit : List Char := ['p', 'a', 's', 's', '-']

/-- Case-insensitive literal match at the start of the subject
(the `re.IGNORECASE` flag); returns the consumed subject characters and
the rest of the subject. -/
def icaseLit : List Char → List Char → Option (List Char × List Char)
  | [], s => some ([], s)
  | _ :: _, [] => none
  | c :: cs, x :: xs =>
    if x.toLower = c.toLower then
      match icaseLit cs xs with
      | some (con, rest) => some (x :: con, rest)
      | none => none
    else none

/-- Greedy match of `(?:\([^)]+\)\s*)+` at the start of the subject:
one or more groups `"(" nonempty-run-without-")" ")"`, each followed by
greedily consumed whitespace.  Returns `(consumed, rest)`.
`fuel` bounds the number of repetitions; each repetition consumes at least
three characters, so `fuel := subject.length` is always sufficient. -/
def matchRep : Nat → List Char → Option (List Char × List Char)
  | 0, _ => none
  | _ + 1, [] => none
  | fuel + 1, c :: cs =>
    if c = '(' then
      let content := cs.takeWhile (fun x => !(x = ')'))
      if content.isEmpty then none
      else
        match cs.dropWhile (fun x => !(x = ')')) with
        | [] => none
        | cl :: rest =>
          let sp := rest.takeWhile pySpace
          let rest2 := rest.dropWhile pySpace
          match matchRep fuel rest2 with
          | some (more, rest3) => some ('(' :: content ++ cl :: sp ++ more, rest3)
          | none => some ('(' :: content ++ cl :: sp, rest2)
    else none

/-- Match of the pattern `\s+pass-((?:\([^)]+\)\s*)+)` (case-insensitive)
anchored at the start of the subject, with the backtracking behaviour of
Python's engine (which here degenerates to the greedy reading).  Returns
`(whole match, group 1, rest of subject)`. -/
def matchHere (s : List Char) : Option (List Char × List Char × List Char) :=
  let ws := s.takeWhile pySpace
  let r1 := s.dropWhile pySpace
  if ws.isEmpty then none
  else
    match icaseLit passLit r1 with
    | none => none
    | some (lit, r2) =>
      match matchRep r2.length r2 with
      | none => none
      | some (grp, rest) => some (ws ++ lit ++ grp, grp, rest)

/-- `re.search` for the marker pattern: leftmost match.  Returns
`(prefix before the match, whole match, group 1, rest)`. -/
def searchAux : List Char → Option (List Char × List Char × List Char × List Char)
  | [] => none
  | c :: cs =>
    match matchHere (c :: cs) with
    | some (m, g, r) => some ([], m, g, r)
    | none =>
      match searchAux cs with
      | some (p, m, g, r) => some (c :: p, m, g, r)
      | none => none

def pysearch (s : List Char) : Option (List Char × List Char × List Char × List Char) :=
  searchAux s

/-- `re.sub` for the marker pattern: replace every (non-overlapping,
leftmost-first) match by `repl`.  `fuel` bounds the scan steps; every step
consumes at least one subject character, so `fuel := s.length` suffices. -/
def subAllAux (repl : List Char) : Nat → List Char → List Char
  | _, [] => []
  | 0, s => s
  | fuel + 1, c :: cs =>
    match matchHere (c :: cs) with
    | some (_, _, r) => repl ++ subAllAux repl fuel r
    | none => c :: subAllAux repl fuel cs

def subAll (repl s : List Char) : List Char :=
  subAllAux repl s.length s

/-- `re.findall(r"\(([^)]+)\)", s)`: contents of each non-overlapping
parenthesized group with nonempty `)`-free content, left to right.
`fuel` bounds the scan steps; every step consumes at least one subject
character, so `fuel := s.length` suffices. -/
def findParensAux : Nat → List Char → List (List Char)
  | _, [] => []
  | 0, _ => []
  | fuel + 1, c :: cs =>
    if c = '(' then
      let content := cs.takeWhile (fun x => !(x = ')'))
      if content.isEmpty then findParensAux fuel cs
      else
        match cs.dropWhile (fun x => !(x = ')')) with
        | [] => findParensAux fuel cs
        | _ :: rest2 => content :: findParensAux fuel rest2
    else findParensAux fuel cs

def findParens (s : List Char) : List (List Char) :=
  findParensAux s.length s

/-- `" ".join("(" + t + ")" for t in ts)`: re-serialization of the
remaining password tokens. -/
def serializeTokens : List (List Char) → List Char
  | [] => []
  | [t] => '(' :: t ++ [')']
  | t :: ts => '(' :: t ++ ')' :: ' ' :: serializeTokens ts

/-- A subject at which the group repetition `(?:\([^)]+\)\s*)+` can neither
continue nor absorb leading whitespace: empty, or starting with a character
that is neither whitespace nor `(`. -/
def blocksRep : List Char → Bool
  | [] => true
  | c :: _ => !pySpace c && !(c = '(')

/-- `ArchiveProcessor._extract_password_from_filename`, modelled on the
file's name: returns `(password, cleaned filename)`. -/
def extractPasswordFromFilename (filename : List Char) :
    Option (List Char) × List Char :=
  match pysearch filename with
  | none => (none, filename)
  | some (_, _, grp, _) =>
    let passwordPart := pyStrip grp
    match findParens passwordPart with
    | [] => (none, filename)
    | p0 :: rest =>
      if rest.isEmpty then
        (some p0, subAll [] filename)
      else
        let remainingPart := serializeTokens rest
        (some p0, subAll (' ' :: passLit ++ remainingPart) filename)

/-- `ArchiveProcessor._parse_passwords`: the character-scan token parser
(bare whitespace-separated tokens, parenthesized tokens with internal
whitespace, unmatched `(` consuming to end of input).  Tokens are
`str.strip`ped; a flush is skipped (and the pending token kept) when the
stripped pending token is empty, exactly as in the Python loop. -/
def parsePasswordsAux : List Char → Bool → List Char → List (List Char)
  | cur, _, [] => if pyStrip cur = [] then [] else [pyStrip cur]
  | cur, inPar, c :: cs =>
    if c = '(' && !inPar then
      if pyStrip cur = [] then parsePasswordsAux cur true cs
      else pyStrip cur :: parsePasswordsAux [] true cs
    else if c = ')' && inPar then
      pyStrip cur :: parsePasswordsAux [] false cs
    else if c = ' ' && !inPar then
      if pyStrip cur = [] then parsePasswordsAux cur inPar cs
      else pyStrip cur :: parsePasswordsAux [] inPar cs
    else
      parsePasswordsAux (cur ++ [c]) inPar cs

def parsePasswords (s : List Char) : List (List Char) :=
  parsePasswordsAux [] false s

/-! ## The cascade branch of `_apply_rules` (password forwarding) -/

/-- Python's `pat in s` substring test (case-sensitive). -/
def hasSubstr (pat : List Char) : List Char → Bool
  | [] => pat.isEmpty
  | c :: cs => pat.isPrefixOf (c :: cs) || hasSubstr pat cs

/-- `pathlib.PurePath` name splitting: `(stem, suffix)`.  The suffix is the
part from the last `.` when that dot is neither the first nor the last
character of the name; otherwise the suffix is empty. -/
def pathSplitExt (name : List Char) : List Char × List Char :=
  let rev := name.reverse
  let extRev := rev.takeWhile (fun x => !(x = '.'))
  match rev.dropWhile (fun x => !(x = '.')) with
  | [] => (name, [])
  | _ :: stemRev =>
    if stemRev.isEmpty || extRev.isEmpty then (name, [])
    else (stemRev.reverse, '.' :: extRev.reverse)

def pathStem (name : List Char) : List Char := (pathSplitExt name).1

def pathSuffix (name : List Char) : List Char := (pathSplitExt name).2

/-- Match of the pattern `\s+pass-([^.]+)` (case-insensitive) anchored at
the start of the subject: whitespace, the literal, then a greedy nonempty
run of non-`.` characters (group 1). -/
def matchHere2 (s : List Char) : Option (List Char) :=
  let ws := s.takeWhile pySpace
  let r1 := s.dropWhile pySpace
  if ws.isEmpty then none
  else
    match icaseLit passLit r1 with
    | none => none
    | some (_, r2) =>
      let grp := r2.takeWhile (fun x => !(x = '.'))
      if grp.isEmpty then none else some grp

/-- `re.search(r"\s+pass-([^.]+)", s, re.IGNORECASE)`, returning group 1. -/
def search2 : List Char → Option (List Char)
  | [] => none
  | c :: cs =>
    match matchHere2 (c :: cs) with
    | some g => some g
    | none => search2 cs

/-- The nested-archive target name computed by the cascade branch of
`_apply_rules` (lines 610-633 of `helper.py`): `outerName` is
`archive_path.name` at rule time (the already password-peeled name of the
outer archive) and `innerName` the nested archive's file name. -/
def cascadeTargetName (outerName innerName : List Char) : List Char :=
  if hasSubstr (' ' :: passLit) outerName then
    let remainingFilename := (extractPasswordFromFilename outerName).2
    match search2 remainingFilename with
    | some grp =>
      pathStem innerName ++ ' ' :: passLit ++ pyStrip grp ++ pathSuffix innerName
    | none => innerName
  else innerName

/-! ## Type detection (`_detect_file_type`, `_detect_by_magic_bytes`) -/

def toLowerList (s : List Char) : List Char := s.map Char.toLower

/-- `self.supported_formats`. -/
def supportedFormats : List (List Char) := [".zip".data, ".rar".data, ".7z".data]

/-- `self.magic_signatures`, in dict insertion order. -/
def magicSignatures : List (List Nat × List Char) :=
  [ ([0x50, 0x4B, 0x03, 0x04], ".zip".data)
  , ([0x50, 0x4B, 0x05, 0x06], ".zip".data)
  , ([0x50, 0x4B, 0x07, 0x08], ".zip".data)
  , ([0x52, 0x61, 0x72, 0x21, 0x1A, 0x07, 0x00], ".rar".data)
  , ([0x52, 0x61, 0x72, 0x21, 0x1A, 0x07, 0x01, 0x00], ".rar".data)
  , ([0x37, 0x7A, 0xBC, 0xAF, 0x27, 0x1C], ".7z".data) ]

def zipSignatures : List (List Nat) :=
  [[0x50, 0x4B, 0x03, 0x04], [0x50, 0x4B, 0x05, 0x06], [0x50, 0x4B, 0x07, 0x08]]

def rarSignatures : List (List Nat) :=
  [[0x52, 0x61, 0x72, 0x21, 0x1A, 0x07, 0x00],
   [0x52, 0x61, 0x72, 0x21, 0x1A, 0x07, 0x01, 0x00]]

def sevenZSignature : List Nat := [0x37, 0x7A, 0xBC, 0xAF, 0x27, 0x1C]

/-- `_is_zip_file`. -/
def isZipHeader (header : List Nat) : Bool :=
  zipSignatures.any (fun sig => sig.isPrefixOf header)

/-- `_is_rar_file`. -/
def isRarHeader (header : List Nat) : Bool :=
  rarSignatures.any (fun sig => sig.isPrefixOf header)

/-- `_is_7z_file`. -/
def is7zHeader (header : List Nat) : Bool :=
  sevenZSignature.isPrefixOf header

/-- `_detect_by_magic_bytes` on the first-32-bytes header: the
`magic_signatures` loop, then (with the optional `python-magic` library
unavailable, its `ImportError` branch) the manual signature variants. -/
def detectByMagicBytes (header : List Nat) : Option (List Char) :=
  match (magicSignatures.find? (fun sg => sg.1.isPrefixOf header)).map (·.2) with
  | some t => some t
  | none =>
    if isZipHeader header then some (".zip".data)
    else if isRarHeader header then some (".rar".data)
    else if is7zHeader header then some (".7z".data)
    else none

/-- The filesystem facts `_detect_file_type` consults about one path. -/
structure FsNode where
  isDir : Bool
  isFile : Bool
  /-- `Path(...).suffix` of the path, before lowercasing. -/
  suffix : List Char
  /-- The file's content bytes (only the first 32 are ever read). -/
  content : List Nat

/-- `_detect_file_type`. -/
def detectFileType (f : FsNode) : Option (List Char) :=
  if f.isDir then none
  else if !f.isFile then none
  else
    let suffix := toLowerList f.suffix
    if suffix ∈ supportedFormats then some suffix
    else if suffix.isEmpty || !(decide (suffix ∈ supportedFormats)) then
      detectByMagicBytes (f.content.take 32)
    else none

/-! ## The readiness tracker (`check_pending_files` in `monitor.py`) -/

/-- The environment-derived configuration of `ArchiveEventHandler`. -/
structure MonitorConfig where
  stabilityWaitTime : ℚ
  minStableChecks : Nat
  maxWaitTime : ℚ

/-- One entry of `self.pending_files` (sizes in bytes; `time.time()` /
`st_mtime` values modelled as rationals). -/
structure PendingInfo where
  lastSize : Nat
  lastMtime : ℚ
  lastCheck : ℚ
  createdTime : ℚ
  stableCount : Nat
deriving DecidableEq

/-- What one tick observes about the file on disk. -/
inductive Observation
  | missing
  | statError
  | ok (size : Nat) (mtime : ℚ)

/-- `min_check_delay` (line 154 of `monitor.py`). -/
def minCheckDelay : ℚ := 3

/-- The stability-update part of one tick (lines 151-171): counting only
after the grace delay, resetting on any size/mtime change. -/
def updatePending (info : PendingInfo) (size : Nat) (mtime : ℚ) (now : ℚ) :
    PendingInfo :=
  if minCheckDelay ≤ now - info.createdTime then
    if size = info.lastSize ∧ mtime = info.lastMtime then
      { info with stableCount := info.stableCount + 1, lastCheck := now }
    else
      { info with stableCount := 0, lastSize := size, lastMtime := mtime,
                  lastCheck := now }
  else
    { info with lastSize := size, lastMtime := mtime, stableCount := 0,
                lastCheck := now }

/-- The fate of one pending entry after a tick. -/
inductive TickOutcome
  | removed
  | skipped
  | promoted
  | waiting (next : PendingInfo)
deriving DecidableEq

/-- One iteration of the `check_pending_files` loop for a single pending
entry (lines 132-199): drop vanished files, skip stat failures, update
stability, then promote on stability or forced timeout. -/
def checkPendingTick (cfg : MonitorConfig) (info : PendingInfo)
    (obs : Observation) (now : ℚ) : TickOutcome :=
  match obs with
  | .missing => .removed
  | .statError => .skipped
  | .ok size mtime =>
    let info2 := updatePending info size mtime now
    if cfg.minStableChecks ≤ info2.stableCount then .promoted
    else if cfg.maxWaitTime < now - info.createdTime then .promoted
    else .waiting info2

/-- Position (1-based) of the first promoting tick when the file's size and
mtime have stopped changing: every tick observes the same `size`/`mtime`,
at the times listed in `times`. -/
def firstPromotionIndex (cfg : MonitorConfig) (size : Nat) (mtime : ℚ)
    (info : PendingInfo) : List ℚ → Option Nat
  | [] => none
  | t :: ts =>
    match checkPendingTick cfg info (.ok size mtime) t with
    | .promoted => some 1
    | .waiting info2 =>
      match firstPromotionIndex cfg size mtime info2 ts with
      | some n => some (n + 1)
      | none => none
    | _ => none

/-! ## The rule engine (`_apply_rules`) and `process_archive` -/

/-- One top-level entry of the extraction scratch directory, as the rule
engine observes it: its name, whether it is a directory, and the result of
`_detect_file_type` on it (which is `none` for every directory). -/
structure Item where
  name : List Char
  isDir : Bool
  detected : Option (List Char)
deriving DecidableEq

/-- The four dispositions of `_apply_rules` (its quarantine branches all
call `_handle_mixed_content`). -/
inductive Disposition
  | cascade
  | mixed
  | rjKeep
  | renameSingle
deriving DecidableEq

/-- `name.startswith("RJ")`. -/
def startsRJ (s : List Char) : Bool := ['R', 'J'].isPrefixOf s

/-- The rule selected by `_apply_rules` for one archive, in the source's
priority order (lines 599-691 of `helper.py`). -/
def applyRulesDecision (archiveStem : List Char) (items : List Item) :
    Disposition :=
  let archiveFiles := items.filter (fun i => i.detected.isSome)
  let otherFiles := items.filter (fun i => !i.detected.isSome)
  if !archiveFiles.isEmpty && otherFiles.isEmpty then .cascade
  else if !archiveFiles.isEmpty && !otherFiles.isEmpty then .mixed
  else if !(items.filter (fun i => !i.isDir)).isEmpty then .mixed
  else
    let folders := items.filter (fun i => i.isDir)
    if folders.all (fun f => startsRJ f.name) then .rjKeep
    else
      match folders with
      | [f] => if !startsRJ f.name && startsRJ archiveStem then .renameSingle
               else .mixed
      | _ => .mixed

/-- `f"{base}_{counter}"`. -/
def suffixed (base : List Char) (k : Nat) : List Char :=
  base ++ '_' :: (Nat.repr k).data

/-- The `while target.exists(): target = f"{base}_{counter}"; counter += 1`
collision loop, searching counters `k, k+1, ...`; `fuel` bounds the search
(with `fuel := taken.length + 1` a free name is always reached). -/
def freshNameAux (taken : List (List Char)) (base : List Char) :
    Nat → Nat → List Char
  | 0, k => suffixed base k
  | fuel + 1, k =>
    if suffixed base k ∈ taken then freshNameAux taken base fuel (k + 1)
    else suffixed base k

/-- The collision-safe target name used by `_handle_rj_folders`,
`_handle_single_folder_rename` and `_handle_mixed_content`: the base name
itself when free, else the first free `f"{base}_{k}"` with `k = 1, 2, ...`. -/
def freshName (taken : List (List Char)) (base : List Char) : List Char :=
  if base ∈ taken then freshNameAux taken base (taken.length + 1) 1 else base

/-- Destination names chosen by the `_handle_rj_folders` move loop: each
folder is moved to the collision-safe variant of its own name, the watch
root growing as the loop proceeds. -/
def rjDestinations (wd : List (List Char)) : List (List Char) → List (List Char)
  | [] => []
  | n :: ns =>
    let d := freshName wd n
    d :: rjDestinations (wd ++ [d]) ns

/-- The `processing_log.txt` record written by `_create_processing_log`. -/
structure Manifest where
  originalArchive : List Char
  timestamp : List Char
  reason : List Char
deriving DecidableEq

/-- The reason string passed by `_handle_mixed_content`
(`"需要手动处理"`, "needs manual handling"). -/
def mixedReason : List Char := "需要手动处理".data

/-- The observable outcome of `_handle_mixed_content`. -/
structure MixedResult where
  folderName : List Char
  movedInto : List (List Char)
  manifest : Manifest
deriving DecidableEq

/-- `_handle_mixed_content`: create the dated, collision-safe folder under
the watch root, move every top-level entry into it under its own name, and
write the processing log inside it. -/
def handleMixedContent (wd : List (List Char)) (today : List Char)
    (archiveName : List Char) (timestamp : List Char) (items : List Item) :
    MixedResult :=
  let base := today ++ '-' :: pathStem archiveName
  { folderName := freshName wd base
  , movedInto := items.map (fun i => i.name)
  , manifest := { originalArchive := archiveName
                , timestamp := timestamp
                , reason := mixedReason } }

/-- Outcome of `_apply_rules`: its boolean result, the disposition taken,
and the names created directly under the watch root by that disposition
(nested archives moved in by the cascade, the quarantine folder, the moved
RJ folders, or the renamed single folder).  Filesystem operations are
modelled as succeeding, so each disposition handler reports `true` exactly
as the exception-free Python does. -/
structure RulesOutcome where
  ok : Bool
  decision : Disposition
  created : List (List Char)
deriving DecidableEq

def applyRulesModel (wd : List (List Char)) (today timestamp : List Char)
    (archiveName : List Char) (items : List Item) : RulesOutcome :=
  match applyRulesDecision (pathStem archiveName) items with
  | .cascade =>
    let archiveFiles := items.filter (fun i => i.detected.isSome)
    { ok := true, decision := .cascade
    , created := archiveFiles.map (fun i => cascadeTargetName archiveName i.name) }
  | .mixed =>
    let r := handleMixedContent wd today archiveName timestamp items
    { ok := true, decision := .mixed, created := [r.folderName] }
  | .rjKeep =>
    let folders := items.filter (fun i => i.isDir)
    { ok := true, decision := .rjKeep
    , created := rjDestinations wd (folders.map (fun i => i.name)) }
  | .renameSingle =>
    { ok := true, decision := .renameSingle
    , created := [freshName wd (pathStem archiveName)] }

/-- A rename of one directory entry of the watch root. -/
def renameEntry (wd : List (List Char)) (old new : List Char) :
    List (List Char) :=
  if old = new then wd else (wd.erase old).concat new

/-- `Path.with_suffix`: the stem with the new suffix. -/
def withSuffix (name suf : List Char) : List Char := pathStem name ++ suf

/-- The observable outcome of one `process_archive` call (the recursive
calls made by the cascade re-enter the same pipeline on the moved files and
are not expanded here; `process_archive` ignores their results). -/
structure ProcessResult where
  success : Bool
  archiveDeleted : Bool
  /-- The name under which the source archive file exists when the call
  returns (`none` when it was deleted or never existed). -/
  archiveFinalName : Option (List Char)
  dispositionApplied : Option Disposition
  /-- Names created directly under the watch root. -/
  created : List (List Char)
deriving DecidableEq

/-- `process_archive` (lines 207-319 of `helper.py`) in the exception-free
execution: existence check, type detection, extension-fixing rename,
password peel and rename, extraction into a scratch directory (its outcome
supplied as `extractResult`; `none` = extraction failed), the empty-archive
shortcut, rule application, and deletion of the source archive on success. -/
def processArchiveModel (wd : List (List Char)) (archiveName : List Char)
    (present : Bool) (detected : Option (List Char))
    (extractResult : Option (List Item)) (today timestamp : List Char) :
    ProcessResult :=
  if !present then
    { success := false, archiveDeleted := false, archiveFinalName := none
    , dispositionApplied := none, created := [] }
  else
    match detected with
    | none =>
      { success := false, archiveDeleted := false
      , archiveFinalName := some archiveName
      , dispositionApplied := none, created := [] }
    | some dt =>
      let name1 := if toLowerList (pathSuffix archiveName) ≠ dt then
                     withSuffix archiveName dt
                   else archiveName
      let pc := extractPasswordFromFilename name1
      let name2 := if pc.1.isSome then pc.2 else name1
      match extractResult with
      | none =>
        { success := false, archiveDeleted := false
        , archiveFinalName := some name2
        , dispositionApplied := none, created := [] }
      | some items =>
        if items.isEmpty then
          { success := true, archiveDeleted := true, archiveFinalName := none
          , dispositionApplied := none, created := [] }
        else
          let wd2 := renameEntry (renameEntry wd archiveName name1) name1 name2
          let r := applyRulesModel wd2 today timestamp name2 items
          if r.ok then
            { success := true, archiveDeleted := true, archiveFinalName := none
            , dispositionApplied := some r.decision, created := r.created }
          else
            { success := false, archiveDeleted := false
            , archiveFinalName := some name2
            , dispositionApplied := some r.decision, created := r.created }

/-! ## Theorems -/

/-! ### Sanity checks of the embedding against the repository tests -/

-- sanity checks against the repository's own password test vectors
example :
    extractPasswordFromFilename ("RJ123456 pass-(my password).zip".data)
      = (some ("my password".data), "RJ123456.zip".data) := by decide

example :
    extractPasswordFromFilename ("RJ123456 pass-(password 1) (password 2).zip".data)
      = (some ("password 1".data), "RJ123456 pass-(password 2).zip".data) := by decide

example :
    extractPasswordFromFilename ("normal.zip".data) = (none, "normal.zip".data) := by
  decide

-- sanity checks against `test_password_parsing_internals`
example : parsePasswords ("password1 password2".data)
    = ["password1".data, "password2".data] := by decide
example : parsePasswords ("simple (password with spaces) final".data)
    = ["simple".data, "password with spaces".data, "final".data] := by decide
example : parsePasswords ("()".data) = [[]] := by decide
example : parsePasswords ("  spaced  ".data) = ["spaced".data] := by decide

example : pathSplitExt ("inner.zip".data) = ("inner".data, ".zip".data) := by decide
example : pathSplitExt ("noext".data) = ("noext".data, []) := by decide
example : pathSplitExt (".hidden".data) = (".hidden".data, []) := by decide
example : pathSplitExt ("a.tar.gz".data) = ("a.tar".data, ".gz".data) := by decide

-- With three password layers the outer peel leaves "pass-(p2) (p3)";
-- the cascade branch forwards only "(p3)", dropping p2.
example : cascadeTargetName ("RJ1 pass-(p2) (p3).zip".data) ("inner.zip".data)
    = ("inner pass-(p3).zip".data) := by decide

example : detectFileType ⟨true, false, [], []⟩ = none := by decide
example : detectFileType ⟨false, true, ".ZIP".data, []⟩ = some (".zip".data) := by
  decide
example : detectFileType ⟨false, true, [], [0x50, 0x4B, 0x03, 0x04, 0x99]⟩
    = some (".zip".data) := by decide
example : detectFileType ⟨false, true, ".txt".data, [0x61, 0x62]⟩ = none := by decide

/-- C3.  The password-segment grammar of the spec (implemented by
`_parse_passwords`) accepts bare tokens, and the repository's own tests
(`test_basic_password_extraction`) expect
`"test pass-simple.rar" ↦ ("simple", "test.rar")`; but
`_extract_password_from_filename` — the only extraction entry point used by
`process_archive` — matches its marker with a regex requiring parenthesized
groups and never calls `_parse_passwords`, so a bare token yields no
password and an unchanged name. -/
theorem bare_token_password_not_extracted :
    extractPasswordFromFilename ("test pass-simple.rar".data)
      = (none, "test pass-simple.rar".data)
    ∧ parsePasswords ("simple".data) = ["simple".data] := by
  decide

/-- C1.  Cascade password forwarding evaluated at a nested archive: the
outer archive originally named `"RJ123456 pass-(p1) (p2).zip"` is peeled to
`"RJ123456 pass-(p2).zip"` (password `p1` used for its own extraction), so
the still-remaining password-chain segment is `"(p2)"`; but the cascade
branch of `_apply_rules` peels the already-peeled name once more before
re-serializing, so the nested archive `"inner.zip"` is moved under its bare
name and `p2` is dropped instead of being appended as `" pass-(p2)"`. -/
theorem cascade_drops_remaining_password_layer :
    extractPasswordFromFilename ("RJ123456 pass-(p1) (p2).zip".data)
      = (some ("p1".data), "RJ123456 pass-(p2).zip".data)
    ∧ hasSubstr (' ' :: passLit) ("RJ123456 pass-(p2).zip".data) = true
    ∧ cascadeTargetName ("RJ123456 pass-(p2).zip".data) ("inner.zip".data)
        = "inner.zip".data
    ∧ (processArchiveModel [] ("RJ123456 pass-(p1) (p2).zip".data) true
        (some (".zip".data))
        (some [⟨"inner.zip".data, false, some (".zip".data)⟩])
        ("20260101".data) ("ts".data)).dispositionApplied
        = some Disposition.cascade
    ∧ (processArchiveModel [] ("RJ123456 pass-(p1) (p2).zip".data) true
        (some (".zip".data))
        (some [⟨"inner.zip".data, false, some (".zip".data)⟩])
        ("20260101".data) ("ts".data)).created
        = ["inner.zip".data] := by
  refine ⟨by decide, by decide, by decide, ?_, ?_⟩ <;> decide

/-- C4.  Password-chain extraction is idempotent: whenever it reports no
password the filename is returned unchanged, and on a filename in which the
marker pattern is absent it reports no password and the same name. -/
theorem password_extraction_idempotent (f : List Char) :
    ((extractPasswordFromFilename f).1 = none →
      (extractPasswordFromFilename f).2 = f)
    ∧ (pysearch f = none → extractPasswordFromFilename f = (none, f)) := by
  constructor
  · intro h
    unfold extractPasswordFromFilename at h ⊢
    cases hs : pysearch f with
    | none => simp [hs]
    | some v =>
      obtain ⟨a, b, g, r⟩ := v
      simp only [hs] at h ⊢
      cases hp : findParens (pyStrip g) with
      | nil => simp [hp]
      | cons p0 rest =>
        simp only [hp] at h
        cases hr : rest.isEmpty <;> simp [hr] at h
  · intro h
    unfold extractPasswordFromFilename
    simp [h]

/-- Witness for `password_extraction_idempotent`: on the fully cleaned name
`"RJ123456.zip"` (marker absent, so extraction reports no password) the
name comes back unchanged. -/
theorem password_extraction_idempotent_witness :
    pysearch ("RJ123456.zip".data) = none
    ∧ extractPasswordFromFilename ("RJ123456.zip".data)
        = (none, "RJ123456.zip".data)
    ∧ (extractPasswordFromFilename ("RJ123456.zip".data)).2
        = "RJ123456.zip".data := by
  refine ⟨by decide, (password_extraction_idempotent ("RJ123456.zip".data)).2
    (by decide), (password_extraction_idempotent ("RJ123456.zip".data)).1
    (by decide)⟩

/-- C10.  An archive whose extraction yields zero top-level entries is
handled by the empty-archive shortcut of `process_archive`: success is
reported and the source archive is deleted, no disposition rule runs and
nothing is created under the watch root. -/
theorem empty_archive_success (wd : List (List Char))
    (archiveName dt today timestamp : List Char) :
    processArchiveModel wd archiveName true (some dt) (some []) today timestamp
      = { success := true, archiveDeleted := true, archiveFinalName := none
        , dispositionApplied := none, created := [] } := by
  rfl

/-- In the exception-free execution every disposition handler reports
success, as each of the four `_handle_*` bodies returns `True` unless an
operation raises. -/
lemma applyRulesModel_ok (wd : List (List Char)) (today timestamp : List Char)
    (archiveName : List Char) (items : List Item) :
    (applyRulesModel wd today timestamp archiveName items).ok = true := by
  unfold applyRulesModel
  cases applyRulesDecision (pathStem archiveName) items <;> rfl

/-- Promotion happens in stable ticks as long as the stability threshold is
not yet reached: counting consecutive promotions under constant size/mtime
observations, all past the grace delay and within the forced-wait bound. -/
lemma firstPromotionIndex_stable (cfg : MonitorConfig) (size : Nat) (mtime : ℚ)
    (times : List ℚ) :
    ∀ (info : PendingInfo), info.lastSize = size → info.lastMtime = mtime →
      (∀ t ∈ times, minCheckDelay ≤ t - info.createdTime ∧
        t - info.createdTime ≤ cfg.maxWaitTime) →
      info.stableCount + 1 ≤ cfg.minStableChecks →
      firstPromotionIndex cfg size mtime info times =
        if cfg.minStableChecks - info.stableCount ≤ times.length then
          some (cfg.minStableChecks - info.stableCount)
        else none := by
  induction times with
  | nil =>
    intro info _ _ _ hk
    have hgt : ¬ cfg.minStableChecks - info.stableCount ≤ (([] : List ℚ)).length := by
      simp only [List.length_nil]
      omega
    rw [if_neg hgt]
    rfl
  | cons t ts ih =>
    intro info hsize hmtime htimes hk
    have ht := htimes t (by simp)
    have hupd : updatePending info size mtime t
        = { info with stableCount := info.stableCount + 1, lastCheck := t } := by
      unfold updatePending
      rw [if_pos ht.1, if_pos ⟨hsize.symm, hmtime.symm⟩]
    by_cases hreach : cfg.minStableChecks ≤ info.stableCount + 1
    · have hEq : cfg.minStableChecks = info.stableCount + 1 := by omega
      have hprom : checkPendingTick cfg info (.ok size mtime) t = .promoted := by
        unfold checkPendingTick
        simp only [hupd]
        rw [if_pos hreach]
      have hlen : cfg.minStableChecks - info.stableCount ≤ (t :: ts).length := by
        simp only [List.length_cons]
        omega
      simp only [firstPromotionIndex, hprom, if_pos hlen]
      congr 1
      omega
    · have hwait : checkPendingTick cfg info (.ok size mtime) t
          = .waiting { info with stableCount := info.stableCount + 1,
                                 lastCheck := t } := by
        unfold checkPendingTick
        simp only [hupd]
        rw [if_neg hreach, if_neg (by exact not_lt.mpr ht.2)]
      have hrec := ih { info with stableCount := info.stableCount + 1,
                                  lastCheck := t }
        hsize hmtime
        (by intro u hu; exact htimes u (by simp [hu]))
        (by simp only; omega)
      simp only [firstPromotionIndex, hwait, hrec]
      by_cases hlen : cfg.minStableChecks - (info.stableCount + 1) ≤ ts.length
      · rw [if_pos hlen,
          if_pos (by simp only [List.length_cons]; omega)]
        simp only
        congr 1
        omega
      · rw [if_neg hlen,
          if_neg (by simp only [List.length_cons]; omega)]

/-- C5.  A tick of `check_pending_files` promotes a (present, stat-able)
pending file exactly when its post-update consecutive-stable-count has
reached `MIN_STABLE_CHECKS` or the elapsed time since first observation
exceeds `MAX_WAIT_TIME`; and a candidate whose size and mtime have stopped
changing (every tick past the grace delay and within the forced-wait bound)
is promoted at exactly the threshold-th stable tick, never earlier. -/
theorem pending_promotion_iff_stable_or_timeout :
    (∀ (cfg : MonitorConfig) (info : PendingInfo) (size : Nat) (mtime now : ℚ),
      checkPendingTick cfg info (.ok size mtime) now = .promoted ↔
        (cfg.minStableChecks ≤ (updatePending info size mtime now).stableCount ∨
          cfg.maxWaitTime < now - info.createdTime))
    ∧ (∀ (cfg : MonitorConfig) (size : Nat) (mtime : ℚ) (info : PendingInfo)
        (times : List ℚ),
        1 ≤ cfg.minStableChecks →
        info.stableCount = 0 → info.lastSize = size → info.lastMtime = mtime →
        (∀ t ∈ times, minCheckDelay ≤ t - info.createdTime ∧
          t - info.createdTime ≤ cfg.maxWaitTime) →
        firstPromotionIndex cfg size mtime info times =
          if cfg.minStableChecks ≤ times.length then some cfg.minStableChecks
          else none) := by
  constructor
  · intro cfg info size mtime now
    unfold checkPendingTick
    dsimp only
    by_cases h1 : cfg.minStableChecks ≤ (updatePending info size mtime now).stableCount
    · simp [h1]
    · rw [if_neg h1]
      by_cases h2 : cfg.maxWaitTime < now - info.createdTime
      · simp [h1, h2]
      · simp [h1, h2]
  · intro cfg size mtime info times h1 h0 hsize hmtime htimes
    have := firstPromotionIndex_stable cfg size mtime times info hsize hmtime
      htimes (by omega)
    rw [this, h0]
    simp

/-- Witness for `pending_promotion_iff_stable_or_timeout`: with the default
configuration (threshold 2, max wait 3600) a file first seen at time 0 and
observed stable at ticks 10 and 20 is promoted exactly at the second tick. -/
theorem pending_promotion_iff_stable_or_timeout_witness :
    (checkPendingTick ⟨15, 2, 3600⟩ ⟨100, 5, 0, 0, 1⟩ (.ok 100 5) 10 = .promoted ↔
      ((2 : Nat) ≤ (updatePending ⟨100, 5, 0, 0, 1⟩ 100 5 10).stableCount ∨
        (3600 : ℚ) < 10 - 0))
    ∧ firstPromotionIndex ⟨15, 2, 3600⟩ 100 5 ⟨100, 5, 0, 0, 0⟩ [10, 20, 30]
        = some 2 := by
  constructor
  · exact pending_promotion_iff_stable_or_timeout.1 ⟨15, 2, 3600⟩
      ⟨100, 5, 0, 0, 1⟩ 100 5 10
  · have h := pending_promotion_iff_stable_or_timeout.2 ⟨15, 2, 3600⟩ 100 5
      ⟨100, 5, 0, 0, 0⟩ [10, 20, 30] (by decide) rfl rfl rfl
      (by
        intro t ht
        simp only [List.mem_cons, List.not_mem_nil, or_false] at ht
        rcases ht with rfl | rfl | rfl <;>
          exact ⟨by norm_num [minCheckDelay], by norm_num⟩)
    simpa using h

/-- C8, counterexample.  `process_archive` renames the archive (extension
fix and password peel) before extraction; on an extraction failure the
archive named `"RJ123456 pass-(secret).zip"` is therefore no longer present
under its original name — it persists as `"RJ123456.zip"`, its password
segment stripped — so the failure does not leave the original archive
untouched as stated. -/
theorem failure_leaves_archive_untouched_cex :
    (processArchiveModel [] ("RJ123456 pass-(secret).zip".data) true
        (some (".zip".data)) none ("20260101".data) ("ts".data)).success = false
    ∧ (processArchiveModel [] ("RJ123456 pass-(secret).zip".data) true
        (some (".zip".data)) none ("20260101".data) ("ts".data)).archiveFinalName
        = some ("RJ123456.zip".data)
    ∧ ("RJ123456.zip".data : List Char) ≠ "RJ123456 pass-(secret).zip".data := by
  refine ⟨?_, ?_, by decide⟩ <;> decide

/-- C8, amended.  The source archive is deleted exactly when processing
succeeds; on any failure during extraction or disposition it is not
deleted and (when it existed to begin with) remains present with its
content unmodified — though possibly under a corrected/peeled name — and
the failure is reported as a `false` result (exception containment is
represented by the total, `Bool`-returning embedding of
`process_archive`). -/
theorem failure_keeps_archive_undeleted (wd : List (List Char))
    (archiveName : List Char) (present : Bool) (detected : Option (List Char))
    (extractResult : Option (List Item)) (today timestamp : List Char) :
    ((processArchiveModel wd archiveName present detected extractResult today
        timestamp).success = true ↔
      (processArchiveModel wd archiveName present detected extractResult today
        timestamp).archiveDeleted = true)
    ∧ (present = true →
        (processArchiveModel wd archiveName present detected extractResult today
          timestamp).success = false →
        (processArchiveModel wd archiveName present detected extractResult today
          timestamp).archiveDeleted = false ∧
        (processArchiveModel wd archiveName present detected extractResult today
          timestamp).archiveFinalName.isSome = true) := by
  unfold processArchiveModel
  cases present with
  | false => simp
  | true =>
    cases detected with
    | none => simp
    | some dt =>
      cases extractResult with
      | none => simp
      | some items =>
        cases hi : items.isEmpty with
        | true => simp [hi]
        | false =>
          simp only [hi, Bool.not_true, Bool.false_eq_true, if_false,
            Bool.true_eq_false, if_true, applyRulesModel_ok]
          simp [applyRulesModel_ok]

/-- Witness for `failure_keeps_archive_undeleted`: a present but corrupt
archive (`extraction fails`) is reported failed, not deleted, and still on
disk. -/
theorem failure_keeps_archive_undeleted_witness :
    ((processArchiveModel [] ("a.zip".data) true (some (".zip".data)) none
        [] []).success = true ↔
      (processArchiveModel [] ("a.zip".data) true (some (".zip".data)) none
        [] []).archiveDeleted = true)
    ∧ (processArchiveModel [] ("a.zip".data) true (some (".zip".data)) none
        [] []).archiveDeleted = false
    ∧ (processArchiveModel [] ("a.zip".data) true (some (".zip".data)) none
        [] []).archiveFinalName.isSome = true := by
  have h := failure_keeps_archive_undeleted [] ("a.zip".data) true
    (some (".zip".data)) none [] []
  exact ⟨h.1, h.2 rfl (by decide)⟩

/-- A numerically suffixed name is never the base name (it is strictly
longer). -/
lemma suffixed_ne_base (base : List Char) (k : Nat) : suffixed base k ≠ base := by
  intro h
  have := congrArg List.length h
  simp [suffixed] at this

/-- The collision loop returns a suffixed name with counter at least its
starting value. -/
lemma freshNameAux_suffixed (taken : List (List Char)) (base : List Char) :
    ∀ (fuel k : Nat), ∃ j, k ≤ j ∧ freshNameAux taken base fuel k = suffixed base j := by
  intro fuel
  induction fuel with
  | zero => intro k; exact ⟨k, le_refl k, rfl⟩
  | succ f ih =>
    intro k
    unfold freshNameAux
    by_cases h : suffixed base k ∈ taken
    · rw [if_pos h]
      obtain ⟨j, hj, he⟩ := ih (k + 1)
      exact ⟨j, by omega, he⟩
    · rw [if_neg h]
      exact ⟨k, le_refl k, rfl⟩

/-- Collision-safe naming: the base name is kept exactly when it is free,
and a collision yields the base with a numeric `_k` suffix, `k ≥ 1`. -/
lemma freshName_spec (taken : List (List Char)) (base : List Char) :
    (base ∉ taken → freshName taken base = base)
    ∧ (freshName taken base = base → base ∉ taken)
    ∧ (base ∈ taken → ∃ k, 1 ≤ k ∧ freshName taken base = suffixed base k) := by
  refine ⟨?_, ?_, ?_⟩
  · intro h
    unfold freshName
    rw [if_neg h]
  · intro h hmem
    unfold freshName at h
    rw [if_pos hmem] at h
    obtain ⟨j, _, he⟩ := freshNameAux_suffixed taken base (taken.length + 1) 1
    rw [he] at h
    exact suffixed_ne_base base j h
  · intro h
    unfold freshName
    rw [if_pos h]
    obtain ⟨j, hj, he⟩ := freshNameAux_suffixed taken base (taken.length + 1) 1
    exact ⟨j, hj, he⟩

/-- C6.  Mixed extracted content — at least one recognized archive entry
and at least one non-archive entry — selects the quarantine disposition,
which creates the collision-safe `<date>-<archive stem>` folder under the
watch root, moves every top-level entry into it under its own name, and
writes the processing-log manifest (original archive name, timestamp,
reason) inside it. -/
theorem mixed_content_quarantine :
    (∀ (stem : List Char) (items : List Item),
      (∃ i ∈ items, i.detected.isSome = true) →
      (∃ j ∈ items, j.detected.isSome = false) →
      applyRulesDecision stem items = .mixed)
    ∧ (∀ (wd : List (List Char)) (today timestamp archiveName : List Char)
        (items : List Item),
        (∃ i ∈ items, i.detected.isSome = true) →
        (∃ j ∈ items, j.detected.isSome = false) →
        applyRulesModel wd today timestamp archiveName items =
          { ok := true, decision := .mixed
          , created := [freshName wd (today ++ '-' :: pathStem archiveName)] })
    ∧ (∀ (wd : List (List Char)) (today archiveName timestamp : List Char)
        (items : List Item),
        handleMixedContent wd today archiveName timestamp items =
          { folderName := freshName wd (today ++ '-' :: pathStem archiveName)
          , movedInto := items.map (fun i => i.name)
          , manifest := { originalArchive := archiveName, timestamp := timestamp
                        , reason := mixedReason } })
    ∧ (∀ (taken : List (List Char)) (base : List Char),
        (base ∉ taken → freshName taken base = base)
        ∧ (base ∈ taken → ∃ k, 1 ≤ k ∧ freshName taken base = suffixed base k)) := by
  have hdec : ∀ (stem : List Char) (items : List Item),
      (∃ i ∈ items, i.detected.isSome = true) →
      (∃ j ∈ items, j.detected.isSome = false) →
      applyRulesDecision stem items = .mixed := by
    intro stem items ⟨i, hi, hdi⟩ ⟨j, hj, hdj⟩
    unfold applyRulesDecision
    have h1 : (items.filter (fun i => i.detected.isSome)).isEmpty = false := by
      simp only [List.isEmpty_eq_false, ne_eq, List.filter_eq_nil_iff, not_forall]
      exact ⟨i, hi, by simp [hdi]⟩
    have h2 : (items.filter (fun i => !i.detected.isSome)).isEmpty = false := by
      simp only [List.isEmpty_eq_false, ne_eq, List.filter_eq_nil_iff, not_forall]
      exact ⟨j, hj, by simp [hdj]⟩
    dsimp only
    rw [h1, h2]
    simp
  refine ⟨hdec, ?_, ?_, ?_⟩
  · intro wd today timestamp archiveName items hex hnon
    unfold applyRulesModel
    rw [hdec (pathStem archiveName) items hex hnon]
    rfl
  · intro wd today archiveName timestamp items
    rfl
  · intro taken base
    exact ⟨(freshName_spec taken base).1, (freshName_spec taken base).2.2⟩

/-- Witness for `mixed_content_quarantine`: one nested archive plus one
loose file quarantines into the dated folder with its manifest. -/
theorem mixed_content_quarantine_witness :
    applyRulesDecision ("m".data)
      [⟨"inner.zip".data, false, some (".zip".data)⟩,
       ⟨"readme.txt".data, false, none⟩] = .mixed
    ∧ applyRulesModel [] ("20260101".data) ("ts".data) ("m.zip".data)
        [⟨"inner.zip".data, false, some (".zip".data)⟩,
         ⟨"readme.txt".data, false, none⟩]
        = { ok := true, decision := .mixed
          , created := ["20260101-m".data] }
    ∧ handleMixedContent [] ("20260101".data) ("m.zip".data) ("ts".data)
        [⟨"inner.zip".data, false, some (".zip".data)⟩,
         ⟨"readme.txt".data, false, none⟩]
        = { folderName := "20260101-m".data
          , movedInto := ["inner.zip".data, "readme.txt".data]
          , manifest := { originalArchive := "m.zip".data
                        , timestamp := "ts".data, reason := mixedReason } }
    ∧ freshName [] ("20260101-m".data) = "20260101-m".data := by
  have hex : ∃ i ∈ [(⟨"inner.zip".data, false, some (".zip".data)⟩ : Item),
      ⟨"readme.txt".data, false, none⟩], i.detected.isSome = true := by
    exact ⟨⟨"inner.zip".data, false, some (".zip".data)⟩, by simp, by decide⟩
  have hnon : ∃ j ∈ [(⟨"inner.zip".data, false, some (".zip".data)⟩ : Item),
      ⟨"readme.txt".data, false, none⟩], j.detected.isSome = false := by
    exact ⟨⟨"readme.txt".data, false, none⟩, by simp, by decide⟩
  refine ⟨mixed_content_quarantine.1 ("m".data) _ hex hnon, ?_, ?_, ?_⟩
  · have h := (mixed_content_quarantine.2.1) [] ("20260101".data) ("ts".data)
      ("m.zip".data) _ hex hnon
    rw [h]
    decide
  · have h := (mixed_content_quarantine.2.2.1) [] ("20260101".data)
      ("m.zip".data) ("ts".data)
      [⟨"inner.zip".data, false, some (".zip".data)⟩,
       ⟨"readme.txt".data, false, none⟩]
    rw [h]
    decide
  · exact ((mixed_content_quarantine.2.2.2) [] ("20260101-m".data)).1
      (by decide)

/-- `_apply_rules` computes its disposition independently of the handlers'
effects. -/
lemma applyRulesModel_decision (wd : List (List Char))
    (today timestamp archiveName : List Char) (items : List Item) :
    (applyRulesModel wd today timestamp archiveName items).decision
      = applyRulesDecision (pathStem archiveName) items := by
  unfold applyRulesModel
  cases applyRulesDecision (pathStem archiveName) items <;> rfl

/-- C7.  When every extracted top-level entry is a directory (hence
detected as a non-archive) whose name starts with the `RJ` product-code
prefix, the rule engine selects KeepAsIs: each directory is moved to the
watch root under its own name, a numeric suffix being appended exactly when
the destination name already exists, and on success `process_archive`
deletes the source archive. -/
theorem rj_folders_kept_as_is :
    (∀ (stem : List Char) (items : List Item),
      (∀ i ∈ items, i.isDir = true) → (∀ i ∈ items, i.detected = none) →
      (∀ i ∈ items, startsRJ i.name = true) →
      applyRulesDecision stem items = .rjKeep)
    ∧ (∀ (wd : List (List Char)) (today timestamp archiveName : List Char)
        (items : List Item),
        (∀ i ∈ items, i.isDir = true) → (∀ i ∈ items, i.detected = none) →
        (∀ i ∈ items, startsRJ i.name = true) →
        applyRulesModel wd today timestamp archiveName items =
          { ok := true, decision := .rjKeep
          , created := rjDestinations wd (items.map (fun i => i.name)) })
    ∧ (∀ (wd : List (List Char)) (n : List Char) (ns : List (List Char)),
        rjDestinations wd (n :: ns)
          = freshName wd n :: rjDestinations (wd ++ [freshName wd n]) ns)
    ∧ (∀ (taken : List (List Char)) (base : List Char),
        (base ∉ taken → freshName taken base = base)
        ∧ (freshName taken base = base → base ∉ taken)
        ∧ (base ∈ taken → ∃ k, 1 ≤ k ∧ freshName taken base = suffixed base k))
    ∧ (∀ (wd : List (List Char)) (archiveName det today timestamp : List Char)
        (items : List Item), items ≠ [] →
        (∀ i ∈ items, i.isDir = true) → (∀ i ∈ items, i.detected = none) →
        (∀ i ∈ items, startsRJ i.name = true) →
        (processArchiveModel wd archiveName true (some det) (some items) today
          timestamp).success = true
        ∧ (processArchiveModel wd archiveName true (some det) (some items) today
          timestamp).archiveDeleted = true
        ∧ (processArchiveModel wd archiveName true (some det) (some items) today
          timestamp).dispositionApplied = some .rjKeep) := by
  have hdec : ∀ (stem : List Char) (items : List Item),
      (∀ i ∈ items, i.isDir = true) → (∀ i ∈ items, i.detected = none) →
      (∀ i ∈ items, startsRJ i.name = true) →
      applyRulesDecision stem items = .rjKeep := by
    intro stem items hdir hdet hrj
    unfold applyRulesDecision
    have h1 : items.filter (fun i => i.detected.isSome) = [] := by
      rw [List.filter_eq_nil_iff]
      intro a ha
      simp [hdet a ha]
    have h3 : items.filter (fun i => !i.isDir) = [] := by
      rw [List.filter_eq_nil_iff]
      intro a ha
      simp [hdir a ha]
    have h4 : items.filter (fun i => i.isDir) = items :=
      List.filter_eq_self.mpr hdir
    have h5 : (items.filter (fun i => i.isDir)).all (fun f => startsRJ f.name)
        = true := by
      rw [h4, List.all_eq_true]
      exact hrj
    dsimp only
    rw [h1, h3, h5]
    simp
  have hmodel : ∀ (wd : List (List Char)) (today timestamp archiveName : List Char)
      (items : List Item),
      (∀ i ∈ items, i.isDir = true) → (∀ i ∈ items, i.detected = none) →
      (∀ i ∈ items, startsRJ i.name = true) →
      applyRulesModel wd today timestamp archiveName items =
        { ok := true, decision := .rjKeep
        , created := rjDestinations wd (items.map (fun i => i.name)) } := by
    intro wd today timestamp archiveName items hdir hdet hrj
    unfold applyRulesModel
    rw [hdec (pathStem archiveName) items hdir hdet hrj]
    dsimp only
    rw [List.filter_eq_self.mpr hdir]
  refine ⟨hdec, hmodel, ?_, ?_, ?_⟩
  · intro wd n ns
    rfl
  · intro taken base
    exact freshName_spec taken base
  · intro wd archiveName det today timestamp items hne hdir hdet hrj
    have hie : items.isEmpty = false := List.isEmpty_eq_false.mpr hne
    unfold processArchiveModel
    dsimp only
    rw [hie]
    simp only [Bool.false_eq_true, if_false, applyRulesModel_ok, if_true]
    refine ⟨rfl, rfl, ?_⟩
    rw [applyRulesModel_decision]
    rw [hdec _ items hdir hdet hrj]
    simp

/-- Witness for `rj_folders_kept_as_is`: directories `RJ1` and `RJ2`, with
`RJ1` already present in the watch root (so it gains the `_1` suffix) and
`RJ2` free (moved unchanged); the source archive is deleted. -/
theorem rj_folders_kept_as_is_witness :
    applyRulesDecision ("a".data)
      [⟨"RJ1".data, true, none⟩, ⟨"RJ2".data, true, none⟩] = .rjKeep
    ∧ applyRulesModel ["RJ1".data] ("d".data) ("ts".data) ("a.zip".data)
        [⟨"RJ1".data, true, none⟩, ⟨"RJ2".data, true, none⟩]
        = { ok := true, decision := .rjKeep
          , created := ["RJ1_1".data, "RJ2".data] }
    ∧ freshName ["RJ1".data] ("RJ2".data) = "RJ2".data
    ∧ (∃ k, 1 ≤ k ∧ freshName ["RJ1".data] ("RJ1".data)
        = suffixed ("RJ1".data) k)
    ∧ (processArchiveModel [] ("a.zip".data) true (some (".zip".data))
        (some [⟨"RJ1".data, true, none⟩, ⟨"RJ2".data, true, none⟩])
        ("d".data) ("ts".data)).success = true
    ∧ (processArchiveModel [] ("a.zip".data) true (some (".zip".data))
        (some [⟨"RJ1".data, true, none⟩, ⟨"RJ2".data, true, none⟩])
        ("d".data) ("ts".data)).archiveDeleted = true
    ∧ (processArchiveModel [] ("a.zip".data) true (some (".zip".data))
        (some [⟨"RJ1".data, true, none⟩, ⟨"RJ2".data, true, none⟩])
        ("d".data) ("ts".data)).dispositionApplied = some .rjKeep := by
  have hdir : ∀ i ∈ [(⟨"RJ1".data, true, none⟩ : Item), ⟨"RJ2".data, true, none⟩],
      i.isDir = true := by decide
  have hdet : ∀ i ∈ [(⟨"RJ1".data, true, none⟩ : Item), ⟨"RJ2".data, true, none⟩],
      i.detected = none := by decide
  have hrj : ∀ i ∈ [(⟨"RJ1".data, true, none⟩ : Item), ⟨"RJ2".data, true, none⟩],
      startsRJ i.name = true := by decide
  have hp := rj_folders_kept_as_is.2.2.2.2 [] ("a.zip".data) (".zip".data)
    ("d".data) ("ts".data) _ (by decide) hdir hdet hrj
  refine ⟨rj_folders_kept_as_is.1 ("a".data) _ hdir hdet hrj, ?_, ?_, ?_,
    hp.1, hp.2.1, hp.2.2⟩
  · have h := rj_folders_kept_as_is.2.1 ["RJ1".data] ("d".data) ("ts".data)
      ("a.zip".data) _ hdir hdet hrj
    rw [h]
    decide
  · exact (rj_folders_kept_as_is.2.2.2.1 ["RJ1".data] ("RJ2".data)).1 (by decide)
  · exact (rj_folders_kept_as_is.2.2.2.1 ["RJ1".data] ("RJ1".data)).2.2
      (by decide)

/-- No two distinct magic signatures can both be prefixes of the same
header and disagree on the detected kind (none of the six signatures is a
prefix of another with a different kind), so the dictionary order is
immaterial. -/
lemma isPrefixOf_total (h : List Nat) :
    ∀ a b : List Nat, a.isPrefixOf h = true → b.isPrefixOf h = true →
      a.isPrefixOf b = true ∨ b.isPrefixOf a = true := by
  induction h with
  | nil =>
    intro a b ha hb
    cases a with
    | nil => exact Or.inl (by cases b <;> rfl)
    | cons x xs => exact absurd ha (by simp [List.isPrefixOf])
  | cons x xs ih =>
    intro a b ha hb
    cases a with
    | nil => exact Or.inl (by cases b <;> rfl)
    | cons c cs =>
      cases b with
      | nil => exact Or.inr rfl
      | cons d ds =>
        simp only [List.isPrefixOf, Bool.and_eq_true, beq_iff_eq] at ha hb ⊢
        rcases ih cs ds ha.2 hb.2 with h2 | h2
        · exact Or.inl ⟨ha.1.trans hb.1.symm, h2⟩
        · exact Or.inr ⟨hb.1.trans ha.1.symm, h2⟩

lemma magic_sig_agree (header : List Nat) :
    ∀ p ∈ magicSignatures, ∀ q ∈ magicSignatures,
      p.1.isPrefixOf header = true → q.1.isPrefixOf header = true →
      p.2 = q.2 := by
  intro p hp q hq hph hqh
  have hcomp := isPrefixOf_total header p.1 q.1 hph hqh
  have hfin : ∀ p ∈ magicSignatures, ∀ q ∈ magicSignatures,
      (p.1.isPrefixOf q.1 = true ∨ q.1.isPrefixOf p.1 = true) → p.2 = q.2 := by
    decide
  exact hfin p hp q hq hcomp

/-- C9.  Type detection: a directory is never an archive; a recognized
(lowercased) extension decides the kind without looking at the content;
otherwise the first 32 content bytes are checked against the magic
signatures, and with no matching signature the result is not-an-archive.
The final equivalence shows the magic result is exactly the kind of the
(necessarily unique, order-independent) matching signature. -/
theorem detect_file_type_order :
    (∀ f : FsNode, f.isDir = true → detectFileType f = none)
    ∧ (∀ f : FsNode, f.isDir = false → f.isFile = true →
        toLowerList f.suffix ∈ supportedFormats →
        detectFileType f = some (toLowerList f.suffix))
    ∧ (∀ f : FsNode, f.isDir = false → f.isFile = true →
        toLowerList f.suffix ∉ supportedFormats →
        detectFileType f = detectByMagicBytes (f.content.take 32))
    ∧ (∀ header : List Nat,
        (∀ p ∈ magicSignatures, p.1.isPrefixOf header = false) →
        detectByMagicBytes header = none)
    ∧ (∀ (header : List Nat) (k : List Char),
        detectByMagicBytes header = some k ↔
          ∃ p ∈ magicSignatures, p.1.isPrefixOf header = true ∧ p.2 = k) := by
  have hnone : ∀ header : List Nat,
      (∀ p ∈ magicSignatures, p.1.isPrefixOf header = false) →
      detectByMagicBytes header = none := by
    intro header h
    have hfind : magicSignatures.find? (fun sg => sg.1.isPrefixOf header)
        = none := by
      rw [List.find?_eq_none]
      intro p hp
      simp [h p hp]
    have hz1 := h ([0x50, 0x4B, 0x03, 0x04], ".zip".data) (by simp [magicSignatures])
    have hz2 := h ([0x50, 0x4B, 0x05, 0x06], ".zip".data) (by simp [magicSignatures])
    have hz3 := h ([0x50, 0x4B, 0x07, 0x08], ".zip".data) (by simp [magicSignatures])
    have hr1 := h ([0x52, 0x61, 0x72, 0x21, 0x1A, 0x07, 0x00], ".rar".data)
      (by simp [magicSignatures])
    have hr2 := h ([0x52, 0x61, 0x72, 0x21, 0x1A, 0x07, 0x01, 0x00], ".rar".data)
      (by simp [magicSignatures])
    have h7 := h ([0x37, 0x7A, 0xBC, 0xAF, 0x27, 0x1C], ".7z".data)
      (by simp [magicSignatures])
    unfold detectByMagicBytes
    rw [hfind]
    simp only [Option.map_none]
    simp [isZipHeader, isRarHeader, is7zHeader, zipSignatures, rarSignatures,
      sevenZSignature, hz1, hz2, hz3, hr1, hr2, h7]
  refine ⟨?_, ?_, ?_, hnone, ?_⟩
  · intro f h
    simp [detectFileType, h]
  · intro f hdir hfile hmem
    simp [detectFileType, hdir, hfile, hmem]
  · intro f hdir hfile hmem
    simp [detectFileType, hdir, hfile, hmem]
  · intro header k
    constructor
    · intro hdet
      cases hf : magicSignatures.find? (fun sg => sg.1.isPrefixOf header) with
      | some pr =>
        have : detectByMagicBytes header = some pr.2 := by
          unfold detectByMagicBytes
          rw [hf]
          rfl
        rw [this] at hdet
        have h2 : pr.1.isPrefixOf header = true :=
          @List.find?_some _ (fun sg => sg.1.isPrefixOf header) pr
            magicSignatures hf
        exact ⟨pr, List.mem_of_find?_eq_some hf, h2, Option.some.inj hdet⟩
      | none =>
        have hall : ∀ p ∈ magicSignatures, p.1.isPrefixOf header = false := by
          intro p hp
          have h2 := List.find?_eq_none.mp hf p hp
          rw [← Bool.not_eq_true]
          exact h2
        rw [hnone header hall] at hdet
        exact absurd hdet (by simp)
    · intro ⟨p, hp, hpre, hk⟩
      cases hf : magicSignatures.find? (fun sg => sg.1.isPrefixOf header) with
      | none =>
        have h2 := List.find?_eq_none.mp hf p hp
        exact absurd hpre h2
      | some pr =>
        have hdet : detectByMagicBytes header = some pr.2 := by
          unfold detectByMagicBytes
          rw [hf]
          rfl
        rw [hdet]
        have h2 : pr.1.isPrefixOf header = true :=
          @List.find?_some _ (fun sg => sg.1.isPrefixOf header) pr
            magicSignatures hf
        have := magic_sig_agree header pr (List.mem_of_find?_eq_some hf) p hp
          h2 hpre
        rw [this, hk]

/-- Witness for `detect_file_type_order`: a directory; a file with the
`.ZIP` extension (content ignored); an extensionless file carrying the ZIP
magic bytes; and a header matching no signature. -/
theorem detect_file_type_order_witness :
    detectFileType ⟨true, false, [], []⟩ = none
    ∧ detectFileType ⟨false, true, ".ZIP".data, [0x00]⟩ = some (".zip".data)
    ∧ detectFileType ⟨false, true, [], [0x50, 0x4B, 0x03, 0x04, 0xAA]⟩
        = detectByMagicBytes [0x50, 0x4B, 0x03, 0x04, 0xAA]
    ∧ detectByMagicBytes [0x61, 0x62, 0x63] = none
    ∧ (detectByMagicBytes [0x50, 0x4B, 0x03, 0x04, 0xAA] = some (".zip".data) ↔
        ∃ p ∈ magicSignatures,
          p.1.isPrefixOf [0x50, 0x4B, 0x03, 0x04, 0xAA] = true
          ∧ p.2 = ".zip".data) := by
  refine ⟨detect_file_type_order.1 ⟨true, false, [], []⟩ rfl,
    detect_file_type_order.2.1 ⟨false, true, ".ZIP".data, [0x00]⟩ rfl rfl
      (by decide),
    ?_,
    detect_file_type_order.2.2.2.1 [0x61, 0x62, 0x63] (by decide),
    detect_file_type_order.2.2.2.2 [0x50, 0x4B, 0x03, 0x04, 0xAA] (".zip".data)⟩
  have h := detect_file_type_order.2.2.1 ⟨false, true, [], [0x50, 0x4B, 0x03, 0x04, 0xAA]⟩
    rfl rfl (by decide)
  simpa using h

/-! ### Laws of the marker-pattern matcher, towards C2 -/

lemma icaseLit_passLit (r : List Char) :
    icaseLit passLit ('p' :: 'a' :: 's' :: 's' :: '-' :: r) = some (passLit, r) := by
  simp [icaseLit, passLit]

lemma matchRep_stuck (fuel : Nat) (s : List Char) (h : blocksRep s = true) :
    matchRep fuel s = none := by
  cases fuel with
  | zero => rfl
  | succ f =>
    cases s with
    | nil => rfl
    | cons c cs =>
      simp only [blocksRep, Bool.and_eq_true, Bool.not_eq_true'] at h
      have hc : ¬ c = '(' := of_decide_eq_false h.2
      simp [matchRep, hc]

lemma takeWhile_pySpace_blocks {s : List Char} (h : blocksRep s = true) :
    s.takeWhile pySpace = [] ∧ s.dropWhile pySpace = s := by
  cases s with
  | nil => exact ⟨rfl, rfl⟩
  | cons c cs =>
    simp only [blocksRep, Bool.and_eq_true, Bool.not_eq_true'] at h
    constructor
    · exact List.takeWhile_cons_of_neg (by simp [h.1])
    · exact List.dropWhile_cons_of_neg (by simp [h.1])

lemma serializeTokens_cons_cons (t u : List Char) (ts : List (List Char)) :
    serializeTokens (t :: u :: ts)
      = '(' :: t ++ ')' :: ' ' :: serializeTokens (u :: ts) := rfl

lemma serializeTokens_head (t : List Char) (ts : List (List Char)) :
    ∃ rest, serializeTokens (t :: ts) = '(' :: rest := by
  cases ts with
  | nil => exact ⟨t ++ [')'], rfl⟩
  | cons u us => exact ⟨t ++ ')' :: ' ' :: serializeTokens (u :: us), rfl⟩

lemma serializeTokens_ends (t : List Char) (ts : List (List Char)) :
    ∃ init, serializeTokens (t :: ts) = init ++ [')'] := by
  induction ts generalizing t with
  | nil => exact ⟨'(' :: t, by simp [serializeTokens]⟩
  | cons u us ih =>
    obtain ⟨init, hi⟩ := ih u
    refine ⟨'(' :: t ++ ')' :: ' ' :: init, ?_⟩
    rw [serializeTokens_cons_cons, hi]
    simp

lemma serializeTokens_length (t : List Char) (ts : List (List Char)) :
    (t :: ts).length ≤ (serializeTokens (t :: ts)).length := by
  induction ts generalizing t with
  | nil => simp [serializeTokens]
  | cons u us ih =>
    have := ih u
    rw [serializeTokens_cons_cons]
    simp only [List.length_cons, List.length_append] at *
    omega

lemma token_pred (t : List Char) (hpar : ')' ∉ t) :
    ∀ a ∈ t, (fun x => !(x = ')')) a = true := by
  intro a ha
  simp only [Bool.not_eq_true', decide_eq_false_iff_not]
  intro he
  exact hpar (he ▸ ha)

/-- One repetition of the group pattern, with the content and the remaining
subject computed. -/
lemma matchRep_step (f : Nat) (t rest : List Char) (ht : t ≠ [])
    (hpar : ')' ∉ t) :
    matchRep (f + 1) ('(' :: (t ++ ')' :: rest))
      = match matchRep f (rest.dropWhile pySpace) with
        | some (more, r3) =>
            some ('(' :: t ++ ')' :: rest.takeWhile pySpace ++ more, r3)
        | none =>
            some ('(' :: t ++ ')' :: rest.takeWhile pySpace,
                  rest.dropWhile pySpace) := by
  have htake : (t ++ ')' :: rest).takeWhile (fun x => !(x = ')')) = t := by
    rw [List.takeWhile_append_of_pos (token_pred t hpar),
      List.takeWhile_cons_of_neg (by simp)]
    simp
  have hdrop : (t ++ ')' :: rest).dropWhile (fun x => !(x = ')')) = ')' :: rest := by
    rw [List.dropWhile_append_of_pos (token_pred t hpar),
      List.dropWhile_cons_of_neg (by simp)]
  have hne : (t ++ ')' :: rest).takeWhile (fun x => !(x = ')')) ≠ [] := by
    rw [htake]; exact ht
  simp only [matchRep, if_pos rfl]
  rw [htake, hdrop]
  simp only [List.isEmpty_eq_false.mpr ht, Bool.false_eq_true, if_false]
  rfl

/-- The greedy repetition consumes a serialized token list exactly, and
stops at a suffix that can neither extend it nor feed its trailing `\s*`. -/
lemma matchRep_serial (suffix : List Char) (hsuf : blocksRep suffix = true) :
    ∀ (t : List Char) (ts : List (List Char)) (fuel : Nat),
      (∀ u ∈ t :: ts, u ≠ [] ∧ ')' ∉ u) → (t :: ts).length ≤ fuel →
      matchRep fuel (serializeTokens (t :: ts) ++ suffix)
        = some (serializeTokens (t :: ts), suffix) := by
  intro t ts
  induction ts generalizing t with
  | nil =>
    intro fuel htok hfuel
    obtain ⟨f, rfl⟩ : ∃ f, fuel = f + 1 :=
      ⟨fuel - 1, by simp at hfuel; omega⟩
    have hsubj : serializeTokens [t] ++ suffix = '(' :: (t ++ ')' :: suffix) := by
      simp [serializeTokens]
    rw [hsubj,
      matchRep_step f t suffix (htok t (by simp)).1 (htok t (by simp)).2,
      (takeWhile_pySpace_blocks hsuf).2,
      matchRep_stuck f suffix hsuf,
      (takeWhile_pySpace_blocks hsuf).1]
    simp [serializeTokens]
  | cons u us ih =>
    intro fuel htok hfuel
    obtain ⟨f, rfl⟩ : ∃ f, fuel = f + 1 :=
      ⟨fuel - 1, by simp at hfuel; omega⟩
    have hsubj : serializeTokens (t :: u :: us) ++ suffix
        = '(' :: (t ++ ')' :: (' ' :: (serializeTokens (u :: us) ++ suffix))) := by
      rw [serializeTokens_cons_cons]
      simp
    have hblock : ∃ r, serializeTokens (u :: us) ++ suffix = '(' :: r := by
      obtain ⟨rest, hr⟩ := serializeTokens_head u us
      exact ⟨rest ++ suffix, by rw [hr]; simp⟩
    obtain ⟨r0, hr0⟩ := hblock
    have htakeSp : (' ' :: (serializeTokens (u :: us) ++ suffix)).takeWhile pySpace
        = [' '] := by
      rw [List.takeWhile_cons_of_pos (by decide), hr0,
        List.takeWhile_cons_of_neg (by decide)]
    have hdropSp : (' ' :: (serializeTokens (u :: us) ++ suffix)).dropWhile pySpace
        = serializeTokens (u :: us) ++ suffix := by
      rw [List.dropWhile_cons_of_pos (by decide), hr0,
        List.dropWhile_cons_of_neg (by decide)]
    rw [hsubj,
      matchRep_step f t _ (htok t (by simp)).1 (htok t (by simp)).2,
      hdropSp,
      ih u f (fun v hv => htok v (by simp at hv ⊢; tauto)) (by simp at hfuel ⊢; omega),
      htakeSp]
    rw [serializeTokens_cons_cons]
    simp

/-- The marker pattern matches a well-formed marker segment exactly,
capturing the serialized token list as group 1. -/
lemma matchHere_marker (t : List Char) (ts : List (List Char))
    (suffix : List Char) (htok : ∀ u ∈ t :: ts, u ≠ [] ∧ ')' ∉ u)
    (hsuf : blocksRep suffix = true) :
    matchHere (' ' :: passLit ++ serializeTokens (t :: ts) ++ suffix)
      = some (' ' :: passLit ++ serializeTokens (t :: ts),
              serializeTokens (t :: ts), suffix) := by
  have hshape : ' ' :: passLit ++ serializeTokens (t :: ts) ++ suffix
      = ' ' :: ('p' :: 'a' :: 's' :: 's' :: '-' ::
          (serializeTokens (t :: ts) ++ suffix)) := by
    simp [passLit]
  have hws : (' ' :: ('p' :: 'a' :: 's' :: 's' :: '-' ::
      (serializeTokens (t :: ts) ++ suffix))).takeWhile pySpace = [' '] := by
    rw [List.takeWhile_cons_of_pos (by decide),
      List.takeWhile_cons_of_neg (by decide)]
  have hdw : (' ' :: ('p' :: 'a' :: 's' :: 's' :: '-' ::
      (serializeTokens (t :: ts) ++ suffix))).dropWhile pySpace
      = 'p' :: 'a' :: 's' :: 's' :: '-' ::
          (serializeTokens (t :: ts) ++ suffix) := by
    rw [List.dropWhile_cons_of_pos (by decide),
      List.dropWhile_cons_of_neg (by decide)]
  have hfuel : (t :: ts).length ≤ (serializeTokens (t :: ts) ++ suffix).length := by
    have := serializeTokens_length t ts
    simp only [List.length_append]
    omega
  rw [hshape]
  unfold matchHere
  rw [hws, hdw]
  simp only [List.isEmpty_cons, Bool.false_eq_true, if_false]
  rw [icaseLit_passLit (serializeTokens (t :: ts) ++ suffix)]
  dsimp only
  rw [matchRep_serial suffix hsuf t ts _ htok hfuel]
  simp [passLit]

/-- Unfolding laws for the scanners (stated by hand: their one-step
reductions). -/
lemma searchAux_cons (c : Char) (cs : List Char) :
    searchAux (c :: cs)
      = match matchHere (c :: cs) with
        | some (m, g, r) => some ([], m, g, r)
        | none =>
          match searchAux cs with
          | some (p, m, g, r) => some (c :: p, m, g, r)
          | none => none := rfl

lemma subAllAux_nil (repl : List Char) (fuel : Nat) :
    subAllAux repl fuel [] = [] := by
  cases fuel <;> rfl

lemma subAllAux_cons_succ (repl : List Char) (fuel : Nat) (c : Char)
    (cs : List Char) :
    subAllAux repl (fuel + 1) (c :: cs)
      = match matchHere (c :: cs) with
        | some (_, _, r) => repl ++ subAllAux repl fuel r
        | none => c :: subAllAux repl fuel cs := rfl

lemma findParensAux_nil (fuel : Nat) : findParensAux fuel [] = [] := by
  cases fuel <;> rfl

/-- `re.search` finds the match after a prefix at which no match begins. -/
lemma searchAux_past_clean (M m g r : List Char)
    (hM : matchHere M = some (m, g, r)) :
    ∀ p : List Char, (∀ n, n < p.length → matchHere (p.drop n ++ M) = none) →
      searchAux (p ++ M) = some (p, m, g, r) := by
  intro p
  induction p with
  | nil =>
    intro _
    cases M with
    | nil => exact Option.noConfusion hM
    | cons c cs =>
      simp only [List.nil_append]
      rw [searchAux_cons, hM]
  | cons c p' ih =>
    intro hp
    have h0 := hp 0 (by simp)
    simp only [List.drop_zero] at h0
    rw [List.cons_append] at h0
    have h1 := ih (fun n hn => by
      have := hp (n + 1) (by simp only [List.length_cons]; omega)
      simpa using this)
    show searchAux (c :: (p' ++ M)) = _
    rw [searchAux_cons, h0, h1]

/-- `re.sub` copies a prefix at which no match begins. -/
lemma subAllAux_skip (repl M : List Char) :
    ∀ (p : List Char) (fuel : Nat),
      (∀ n, n < p.length → matchHere (p.drop n ++ M) = none) →
      subAllAux repl (p.length + fuel) (p ++ M) = p ++ subAllAux repl fuel M := by
  intro p
  induction p with
  | nil => intro fuel _; simp
  | cons c p' ih =>
    intro fuel hp
    have h0 := hp 0 (by simp)
    simp only [List.drop_zero] at h0
    rw [List.cons_append] at h0
    have hlen : (c :: p').length + fuel = (p'.length + fuel) + 1 := by
      simp only [List.length_cons]
      omega
    rw [hlen]
    show subAllAux repl ((p'.length + fuel) + 1) (c :: (p' ++ M)) = _
    rw [subAllAux_cons_succ, h0, ih fuel (fun n hn => by
      have := hp (n + 1) (by simp only [List.length_cons]; omega)
      simpa using this)]
    rfl

/-- `re.sub` leaves a subject without matches unchanged. -/
lemma subAllAux_nomatch (repl : List Char) :
    ∀ (s : List Char) (fuel : Nat),
      (∀ n, n < s.length → matchHere (s.drop n) = none) →
      s.length ≤ fuel → subAllAux repl fuel s = s := by
  intro s
  induction s with
  | nil => intro fuel _ _; exact subAllAux_nil repl fuel
  | cons c cs ih =>
    intro fuel hs hf
    obtain ⟨f, rfl⟩ : ∃ f, fuel = f + 1 :=
      ⟨fuel - 1, by simp only [List.length_cons] at hf; omega⟩
    have h0 := hs 0 (by simp)
    simp only [List.drop_zero] at h0
    rw [subAllAux_cons_succ, h0, ih f (fun n hn => by
        have := hs (n + 1) (by simp only [List.length_cons]; omega)
        simpa using this)
      (by simp only [List.length_cons] at hf; omega)]

/-- The full `re.sub` run on `prefix ++ match ++ rest`: the prefix is
copied, the single match is replaced, the rest is copied. -/
lemma subAll_assembled (repl pre M m g suffix : List Char)
    (hM : matchHere M = some (m, g, suffix)) (hMeq : M = m ++ suffix)
    (hm : m ≠ [])
    (hpre : ∀ n, n < pre.length → matchHere (pre.drop n ++ M) = none)
    (hsufm : ∀ n, n < suffix.length → matchHere (suffix.drop n) = none) :
    subAll repl (pre ++ M) = pre ++ repl ++ suffix := by
  unfold subAll
  rw [List.length_append]
  rw [subAllAux_skip repl M pre M.length hpre]
  obtain ⟨c, cs, rfl⟩ : ∃ c cs, M = c :: cs := by
    cases M with
    | nil =>
      exfalso
      cases m with
      | nil => exact hm rfl
      | cons a as => simp at hMeq
    | cons a as => exact ⟨a, as, rfl⟩
  have hsufle : suffix.length ≤ cs.length := by
    have hl := congrArg List.length hMeq
    simp only [List.length_cons, List.length_append] at hl
    cases m with
    | nil => exact absurd rfl hm
    | cons b bs => simp only [List.length_cons] at hl; omega
  rw [List.length_cons, subAllAux_cons_succ, hM]
  dsimp only
  rw [subAllAux_nomatch repl suffix cs.length hsufm hsufle]
  simp

/-- A serialized nonempty token list is unchanged by `str.strip`. -/
lemma pyStrip_serial (t : List Char) (ts : List (List Char)) :
    pyStrip (serializeTokens (t :: ts)) = serializeTokens (t :: ts) := by
  obtain ⟨rest, hhead⟩ := serializeTokens_head t ts
  obtain ⟨init, hend⟩ := serializeTokens_ends t ts
  have h1 : (serializeTokens (t :: ts)).dropWhile pySpace
      = serializeTokens (t :: ts) := by
    rw [hhead]
    exact List.dropWhile_cons_of_neg (by decide)
  have h2 : (serializeTokens (t :: ts)).reverse.dropWhile pySpace
      = (serializeTokens (t :: ts)).reverse := by
    rw [hend, List.reverse_append]
    simp only [List.reverse_cons, List.reverse_nil, List.nil_append,
      List.singleton_append]
    exact List.dropWhile_cons_of_neg (by decide)
  unfold pyStrip
  rw [h1, h2, List.reverse_reverse]

/-- `re.findall(r"\(([^)]+)\)", ...)` recovers the serialized token list. -/
lemma findParensAux_serial :
    ∀ (t : List Char) (ts : List (List Char)) (fuel : Nat),
      (∀ u ∈ t :: ts, u ≠ [] ∧ ')' ∉ u) →
      (serializeTokens (t :: ts)).length ≤ fuel →
      findParensAux fuel (serializeTokens (t :: ts)) = t :: ts := by
  intro t ts
  induction ts generalizing t with
  | nil =>
    intro fuel htok hfuel
    have hlen1 : (serializeTokens [t]).length = t.length + 2 := by
      show (('(' :: (t ++ [')'])) : List Char).length = t.length + 2
      simp only [List.length_cons, List.length_append, List.length_nil]
    obtain ⟨f, rfl⟩ : ∃ f, fuel = f + 1 := by
      have h2 : t.length + 2 ≤ fuel := hlen1 ▸ hfuel
      exact ⟨fuel - 1, by omega⟩
    have hs : serializeTokens [t] = '(' :: (t ++ [')']) := rfl
    rw [hs]
    simp only [findParensAux, if_pos rfl]
    have htake : (t ++ [')']).takeWhile (fun x => !(x = ')')) = t := by
      rw [List.takeWhile_append_of_pos (token_pred t (htok t (by simp)).2),
        List.takeWhile_cons_of_neg (by simp)]
      simp
    have hdrop : (t ++ [')']).dropWhile (fun x => !(x = ')')) = [')'] := by
      rw [List.dropWhile_append_of_pos (token_pred t (htok t (by simp)).2),
        List.dropWhile_cons_of_neg (by simp)]
    rw [htake, hdrop]
    simp only [List.isEmpty_eq_false.mpr (htok t (by simp)).1,
      Bool.false_eq_true, if_false]
    rw [if_pos trivial, findParensAux_nil]
  | cons u us ih =>
    intro fuel htok hfuel
    have hlen : (serializeTokens (t :: u :: us)).length
        = t.length + 3 + (serializeTokens (u :: us)).length := by
      rw [serializeTokens_cons_cons]
      simp only [List.length_cons, List.length_append]
      omega
    obtain ⟨f, rfl⟩ : ∃ f, fuel = f + 1 :=
      ⟨fuel - 1, by rw [hlen] at hfuel; omega⟩
    obtain ⟨f2, rfl⟩ : ∃ f2, f = f2 + 1 :=
      ⟨f - 1, by rw [hlen] at hfuel; omega⟩
    have hs : serializeTokens (t :: u :: us)
        = '(' :: (t ++ ')' :: ' ' :: serializeTokens (u :: us)) := by
      rw [serializeTokens_cons_cons]
      simp
    rw [hs]
    simp only [findParensAux, if_pos rfl]
    have htake : (t ++ ')' :: ' ' :: serializeTokens (u :: us)).takeWhile
        (fun x => !(x = ')')) = t := by
      rw [List.takeWhile_append_of_pos (token_pred t (htok t (by simp)).2),
        List.takeWhile_cons_of_neg (by simp)]
      simp
    have hdrop : (t ++ ')' :: ' ' :: serializeTokens (u :: us)).dropWhile
        (fun x => !(x = ')')) = ')' :: ' ' :: serializeTokens (u :: us) := by
      rw [List.dropWhile_append_of_pos (token_pred t (htok t (by simp)).2),
        List.dropWhile_cons_of_neg (by simp)]
    rw [htake, hdrop]
    simp only [List.isEmpty_eq_false.mpr (htok t (by simp)).1,
      Bool.false_eq_true, if_false]
    show t :: findParensAux (f2 + 1) (' ' :: serializeTokens (u :: us)) = _
    simp only [findParensAux, if_neg (by decide : ¬ (' ' = '('))]
    rw [ih u f2 (fun v hv => htok v (by simp at hv ⊢; tauto))
      (by rw [hlen] at hfuel; omega)]

/-- C2.  On a filename of the canonical marker shape
`<prefix> pass-(t1) (t2) ... (tn)<suffix>` (tokens nonempty, free of `)`
and of `\\` — the latter so that the literal modelling of the `re.sub`
replacement template is faithful — with no match beginning inside the
prefix or the suffix, extraction returns the first token as the password
and re-serializes the remaining tokens as the new marker segment; with a
single token the marker segment is removed entirely. -/
theorem password_extraction_peels_first_token
    (pre suffix t : List Char) (ts : List (List Char))
    (htok : ∀ u ∈ t :: ts, u ≠ [] ∧ ')' ∉ u ∧ '\\' ∉ u)
    (hsuf : blocksRep suffix = true)
    (hpre : ∀ n, n < pre.length →
      matchHere (pre.drop n ++ (' ' :: passLit ++ serializeTokens (t :: ts)
        ++ suffix)) = none)
    (hsufm : ∀ n, n < suffix.length → matchHere (suffix.drop n) = none) :
    extractPasswordFromFilename
        (pre ++ (' ' :: passLit ++ serializeTokens (t :: ts) ++ suffix))
      = (some t,
         if ts = [] then pre ++ suffix
         else pre ++ (' ' :: passLit ++ serializeTokens ts ++ suffix)) := by
  have htok2 : ∀ u ∈ t :: ts, u ≠ [] ∧ ')' ∉ u :=
    fun u hu => ⟨(htok u hu).1, (htok u hu).2.1⟩
  have hM := matchHere_marker t ts suffix htok2 hsuf
  have hMeq : ' ' :: passLit ++ serializeTokens (t :: ts) ++ suffix
      = (' ' :: passLit ++ serializeTokens (t :: ts)) ++ suffix := by
    simp
  have hsearch := searchAux_past_clean _ _ _ _ hM pre hpre
  have hfp : findParens (serializeTokens (t :: ts)) = t :: ts := by
    unfold findParens
    exact findParensAux_serial t ts _ htok2 (le_refl _)
  have hsub0 := subAll_assembled [] pre _ _ _ suffix hM hMeq (by simp) hpre hsufm
  have hsub1 := subAll_assembled (' ' :: passLit ++ serializeTokens ts) pre
    _ _ _ suffix hM hMeq (by simp) hpre hsufm
  unfold extractPasswordFromFilename
  unfold pysearch
  rw [hsearch]
  dsimp only
  rw [pyStrip_serial t ts, hfp]
  dsimp only
  cases ts with
  | nil =>
    simp only [List.isEmpty_nil, if_true]
    rw [hsub0]
    simp
  | cons u us =>
    simp only [List.isEmpty_cons, Bool.false_eq_true, if_false]
    rw [hsub1]
    simp

/-- Witness for `password_extraction_peels_first_token`: the spec's own
example of the marker grammar, `"RJ123456 pass-(password 1) (password 2).zip"`,
yields password `"password 1"` and cleaned name
`"RJ123456 pass-(password 2).zip"`. -/
theorem password_extraction_peels_first_token_witness :
    extractPasswordFromFilename
        ("RJ123456 pass-(password 1) (password 2).zip".data)
      = (some ("password 1".data), "RJ123456 pass-(password 2).zip".data) := by
  have e1 : ("RJ123456 pass-(password 1) (password 2).zip".data : List Char)
      = "RJ123456".data ++ (' ' :: passLit
        ++ serializeTokens ["password 1".data, "password 2".data]
        ++ ".zip".data) := by decide
  have e2 : ("RJ123456 pass-(password 2).zip".data : List Char)
      = "RJ123456".data ++ (' ' :: passLit
        ++ serializeTokens ["password 2".data] ++ ".zip".data) := by decide
  rw [e1, e2]
  have h := password_extraction_peels_first_token ("RJ123456".data)
    (".zip".data) ("password 1".data) ["password 2".data]
    (by decide) (by decide) (by decide) (by decide)
  simpa using h

end Kikoeru
